import Mathlib

/-!
Shallow embedding of the session aggregation and fan-out engine of
`src/main.py` (Heartbeat Monitor API, session based).

Modelling conventions:
* Python floats (BPM values, statistics) are modelled as exact rationals `ℚ`;
  `round(x, n)` is modelled as round-half-to-even on rationals (`pyRound`),
  the tie-breaking rule of Python 3 `round` under the exact-rational
  idealization of floats.
* `datetime.utcnow()` is modelled as an explicit natural-number clock
  parameter `now` (whole seconds since an epoch); the Python expression
  `(now - start).seconds` (the seconds component of a `timedelta`, which
  drops whole days) is modelled by `timedeltaSeconds`.
* `collections.deque(maxlen=cap).append` is modelled by `dequeAppend cap`:
  append on the right, evicting the oldest element once `cap` is exceeded.
* The Python dict `SessionManager.active_sessions` is modelled as a function
  `String → Option SessionData`.
* WebSocket connections are modelled by their identity (a `ℕ` tag); whether
  `send_text` succeeds for a given connection is a boolean function of the
  connection, since the code reacts only to success or failure of the send.
-/

namespace HeartbeatApi

/-- Round-half-to-even of a rational to an integer: models the tie-breaking
behaviour of Python 3 `round` on exact rationals. -/
def rhe (q : ℚ) : ℤ :=
  if q - ⌊q⌋ < 1/2 then ⌊q⌋
  else if 1/2 < q - ⌊q⌋ then ⌊q⌋ + 1
  else if ⌊q⌋ % 2 = 0 then ⌊q⌋ else ⌊q⌋ + 1

/-- Model of Python `round(q, n)` (round to `n` decimal digits). -/
def pyRound (n : ℕ) (q : ℚ) : ℚ := (rhe (q * 10 ^ n) : ℚ) / 10 ^ n

/-- The last `n` elements of a list, in order. -/
def takeLast (n : ℕ) (l : List α) : List α := l.drop (l.length - n)

/-- Model of `collections.deque(maxlen=cap).append`: append on the right,
dropping the oldest (leftmost) element when the capacity is exceeded. -/
def dequeAppend (cap : ℕ) (l : List α) (x : α) : List α := takeLast cap (l ++ [x])

/-- Model of Python `min(list)` (0 on the empty list, which the code never
takes a minimum of). -/
def listMin : List ℚ → ℚ
  | [] => 0
  | x :: xs => xs.foldl min x

/-- Model of Python `max(list)`. -/
def listMax : List ℚ → ℚ
  | [] => 0
  | x :: xs => xs.foldl max x

/-- Model of `statistics.mean(list)`. -/
def listMean (l : List ℚ) : ℚ := l.sum / (l.length : ℚ)

/-- Model of `(datetime.utcnow() - start).seconds`: the seconds component of
the elapsed `timedelta`, i.e. the elapsed whole seconds modulo 86400 (whole
days are dropped, not converted to seconds). -/
def timedeltaSeconds (start now : ℕ) : ℕ := (now - start) % 86400

/-- One entry of `session["waveform_samples"]` (src/main.py, lines 98-104). -/
structure WaveformSample where
  beat_number : ℕ
  bpm : ℚ
  ir : ℤ
  ac : ℤ
  timestamp : ℕ
deriving DecidableEq

/-- The per-device in-memory session record created by
`SessionManager.start_session` (src/main.py, lines 73-79). -/
structure SessionData where
  start_time : ℕ
  bpm_values : List ℚ
  ir_values : List ℤ
  beat_count : ℕ
  waveform_samples : List WaveformSample
deriving DecidableEq

/-- The dict returned by `SessionManager.get_session_info`
(src/main.py, lines 118-133).  In the empty-rate-buffer branch the Python
dict has no `min_bpm`/`max_bpm` keys, modelled here by `Option`. -/
structure SessionInfo where
  active : Bool
  duration : ℕ
  beats : ℕ
  avg_bpm : ℚ
  min_bpm : Option ℚ
  max_bpm : Option ℚ
deriving DecidableEq

/-- The summary dict returned by `SessionManager.end_session`
(src/main.py, lines 156-168).  `waveform_sample` keeps the sample list
itself rather than its `json.dumps` serialization. -/
structure SessionSummary where
  device_id : String
  session_start : ℕ
  session_end : ℕ
  duration_seconds : ℕ
  total_beats : ℕ
  avg_bpm : ℚ
  min_bpm : ℚ
  max_bpm : ℚ
  avg_ir_value : ℚ
  signal_quality : ℚ
  waveform_sample : List WaveformSample
deriving DecidableEq

/-- Model of the dict `SessionManager.active_sessions`. -/
abbrev SessionMap := String → Option SessionData

/-- The empty `active_sessions` dict. -/
def emptyMap : SessionMap := fun _ => none

/-- Dict assignment `active_sessions[d] = v`. -/
def mapSet (m : SessionMap) (d : String) (v : SessionData) : SessionMap :=
  fun d2 => if d2 = d then some v else m d2

/-- Dict deletion `del active_sessions[d]`. -/
def mapDel (m : SessionMap) (d : String) : SessionMap :=
  fun d2 => if d2 = d then none else m d2

/-- The fresh session record built by `start_session`
(src/main.py, lines 73-79). -/
def freshSession (now : ℕ) : SessionData :=
  { start_time := now
    bpm_values := []
    ir_values := []
    beat_count := 0
    waveform_samples := [] }

/-- `SessionManager.start_session` (src/main.py, lines 70-80): create or
replace the session for the device. -/
def start_session (m : SessionMap) (d : String) (now : ℕ) : SessionMap :=
  mapSet m d (freshSession now)

/-- The mutation `SessionManager.add_beat` performs on an existing session
record (src/main.py, lines 87-108): admit the rate only if positive, always
admit the amplitude, increment the beat count, and capture a waveform sample
on every 10th beat, popping the oldest sample when 500 is exceeded. -/
def beatUpdate (s : SessionData) (bpm : ℚ) (ir ac : ℤ) (now : ℕ) : SessionData :=
  { start_time := s.start_time
    bpm_values := if 0 < bpm then dequeAppend 1000 s.bpm_values bpm else s.bpm_values
    ir_values := dequeAppend 1000 s.ir_values ir
    beat_count := s.beat_count + 1
    waveform_samples :=
      if (s.beat_count + 1) % 10 = 0 then
        let ws := s.waveform_samples ++
          [{ beat_number := s.beat_count + 1
             bpm := pyRound 2 bpm
             ir := ir
             ac := ac
             timestamp := now }]
        if 500 < ws.length then ws.drop 1 else ws
      else s.waveform_samples }

/-- `SessionManager.add_beat` (src/main.py, lines 82-108): auto-start a
session if the device has none, then fold the beat into it. -/
def add_beat (m : SessionMap) (d : String) (bpm : ℚ) (ir ac : ℤ) (now : ℕ) : SessionMap :=
  let m1 := if (m d).isSome then m else start_session m d now
  match m1 d with
  | some s => mapSet m1 d (beatUpdate s bpm ir ac now)
  | none => m1

/-- `SessionManager.get_session_info` (src/main.py, lines 110-133). -/
def get_session_info (m : SessionMap) (d : String) (now : ℕ) : Option SessionInfo :=
  match m d with
  | none => none
  | some s =>
    if s.bpm_values = [] then
      some { active := true
             duration := timedeltaSeconds s.start_time now
             beats := s.beat_count
             avg_bpm := 0
             min_bpm := none
             max_bpm := none }
    else
      some { active := true
             duration := timedeltaSeconds s.start_time now
             beats := s.beat_count
             avg_bpm := pyRound 1 (listMean s.bpm_values)
             min_bpm := some (pyRound 1 (listMin s.bpm_values))
             max_bpm := some (pyRound 1 (listMax s.bpm_values)) }

/-- The fraction (as a percentage) of retained amplitude samples strictly
above 50000, src/main.py lines 151-152 (`good_signal_count / len(ir_list)
* 100 if ir_list else 0`). -/
def signalQuality (irs : List ℤ) : ℚ :=
  if irs ≠ [] then
    ((irs.filter (fun ir => decide (50000 < ir))).length : ℚ) / (irs.length : ℚ) * 100
  else 0

/-- `SessionManager.end_session` (src/main.py, lines 135-175): returns the
updated registry together with the optional summary (`none` is the
"nothing to save" sentinel). -/
def end_session (m : SessionMap) (d : String) (now : ℕ) : SessionMap × Option SessionSummary :=
  match m d with
  | none => (m, none)
  | some s =>
    if s.bpm_values = [] ∨ s.beat_count = 0 then
      (mapDel m d, none)
    else
      (mapDel m d,
        some { device_id := d
               session_start := s.start_time
               session_end := now
               duration_seconds := timedeltaSeconds s.start_time now
               total_beats := s.beat_count
               avg_bpm := pyRound 2 (listMean s.bpm_values)
               min_bpm := pyRound 2 (listMin s.bpm_values)
               max_bpm := pyRound 2 (listMax s.bpm_values)
               avg_ir_value :=
                 if s.ir_values ≠ [] then
                   pyRound 2 (listMean (s.ir_values.map (fun i => (i : ℚ))))
                 else 0
               signal_quality := pyRound 2 (signalQuality s.ir_values)
               waveform_sample := s.waveform_samples })

/-- One inbound heartbeat event: rate, amplitude, raw signal, and the clock
value at which it is processed. -/
structure Beat where
  bpm : ℚ
  ir : ℤ
  ac : ℤ
  time : ℕ
deriving DecidableEq

/-- Feed a list of beats for one device through `add_beat`. -/
def runBeats (m : SessionMap) (d : String) : List Beat → SessionMap
  | [] => m
  | b :: bs => runBeats (add_beat m d b.bpm b.ir b.ac b.time) d bs

/-- Fold a list of beats into a session record with `beatUpdate`. -/
def foldBeats (s : SessionData) (bs : List Beat) : SessionData :=
  bs.foldl (fun s b => beatUpdate s b.bpm b.ir b.ac b.time) s

/-- The strictly-positive rates of a beat sequence, in admission order. -/
def posRates (bs : List Beat) : List ℚ :=
  (bs.map Beat.bpm).filter (fun q => decide (0 < q))

/-- The waveform samples a beat sequence produces when the session has
already counted `k` beats: exactly the beats whose post-increment beat
number is divisible by 10 are captured, in order. -/
def expectedWaveformFrom (k : ℕ) : List Beat → List WaveformSample
  | [] => []
  | b :: bs =>
    (if (k + 1) % 10 = 0 then
      [{ beat_number := k + 1
         bpm := pyRound 2 b.bpm
         ir := b.ir
         ac := b.ac
         timestamp := b.time }]
     else []) ++ expectedWaveformFrom (k + 1) bs

/-- `ConnectionManager.connect` (src/main.py, lines 184-187), restricted to
its effect on the membership list: an unconditional append. -/
def connect (conns : List ℕ) (w : ℕ) : List ℕ := conns ++ [w]

/-- `ConnectionManager.disconnect` (src/main.py, lines 189-192): remove the
connection if present, otherwise leave the list unchanged. -/
def disconnect (conns : List ℕ) (w : ℕ) : List ℕ :=
  if w ∈ conns then conns.erase w else conns

/-- One iteration of the `broadcast` loop body (src/main.py, lines 197-201):
on success the connection is recorded as sent-to, on failure it is appended
to the `disconnected` list. -/
def broadcastStep (sendOk : ℕ → Bool) (acc : List ℕ × List ℕ) (c : ℕ) : List ℕ × List ℕ :=
  if sendOk c then (acc.1 ++ [c], acc.2) else (acc.1, acc.2 ++ [c])

/-- `ConnectionManager.broadcast` (src/main.py, lines 194-204): attempt the
send for every connection in order, collect the failed ones, then disconnect
each failed connection.  Returns the list of connections whose send
succeeded together with the new membership list. -/
def broadcast (conns : List ℕ) (sendOk : ℕ → Bool) : List ℕ × List ℕ :=
  let p := conns.foldl (broadcastStep sendOk) ([], [])
  (p.1, p.2.foldl disconnect conns)

/-- The canonical shape of a session state reached from a fresh session:
each buffer is the capacity-bounded tail of the full history it was fed. -/
def canonState (t0 k : ℕ) (B : List ℚ) (I : List ℤ) (W : List WaveformSample) :
    SessionData :=
  { start_time := t0
    bpm_values := takeLast 1000 B
    ir_values := takeLast 1000 I
    beat_count := k
    waveform_samples := takeLast 500 W }

/-- Concrete beat sequence used to instantiate the sliding-window theorem. -/
def bs0 : List Beat := [{ bpm := 60, ir := 60000, ac := 5, time := 2 }]

/-- Concrete registry used to instantiate the empty-session sentinel
result: it holds a session with no beats. -/
def mEmptySession : SessionMap :=
  mapSet emptyMap "A" (freshSession 0)

/-- Concrete session with data used to instantiate the nonpositive-rate and
well-formed-summary theorems. -/
def sC10 : SessionData :=
  { start_time := 0
    bpm_values := [70]
    ir_values := [60000]
    beat_count := 2
    waveform_samples := [] }

/-- Registry holding `sC10` under device "A". -/
def mC10 : SessionMap := mapSet emptyMap "A" sC10

/-- The summary `end_session mC10 "A" 30` produces (the dummy default is
never used, since the session is live and has data). -/
def sumC10 : SessionSummary :=
  ((end_session mC10 "A" 30).2).getD
    { device_id := ""
      session_start := 0
      session_end := 0
      duration_seconds := 0
      total_beats := 0
      avg_bpm := 0
      min_bpm := 0
      max_bpm := 0
      avg_ir_value := 0
      signal_quality := 0
      waveform_sample := [] }

/-- Session that has been running for one day and one second, used to
exhibit the `timedelta.seconds` duration wrap-around. -/
def sLong : SessionData :=
  { start_time := 0
    bpm_values := [72]
    ir_values := [60000]
    beat_count := 1
    waveform_samples := [] }

/-- Registry holding `sLong` under device "dev". -/
def mLong : SessionMap := mapSet emptyMap "dev" sLong

theorem mapSet_same (m : SessionMap) (d : String) (v : SessionData) :
    mapSet m d v d = some v := by
  simp [mapSet]

theorem mapSet_other (m : SessionMap) (d : String) (v : SessionData) (d2 : String)
    (h : d2 ≠ d) : mapSet m d v d2 = m d2 := by
  simp [mapSet, h]

theorem mapDel_same (m : SessionMap) (d : String) : mapDel m d d = none := by
  simp [mapDel]

theorem end_session_map_del (m : SessionMap) (d : String) (now : ℕ) :
    (end_session m d now).1 d = none ∨ (end_session m d now).1 = m := by
  unfold end_session
  cases hm : m d with
  | none => exact Or.inr rfl
  | some s =>
    by_cases h : s.bpm_values = [] ∨ s.beat_count = 0 <;>
      simp [h, mapDel_same]

/-- Claim C1: calling `end_session` on a session whose beat count is zero or
whose rate buffer is empty returns the "nothing to save" sentinel (`none`),
never a summary record. -/
theorem end_session_empty_sentinel (m : SessionMap) (d : String) (now : ℕ)
    (s : SessionData) (hm : m d = some s)
    (h : s.beat_count = 0 ∨ s.bpm_values = []) :
    (end_session m d now).2 = none := by
  unfold end_session
  rw [hm]
  rcases h with h | h <;> simp [h]

/-- Witness for `end_session_empty_sentinel` at a freshly started session. -/
theorem end_session_empty_sentinel_witness :
    (end_session mEmptySession "A" 1).2 = none :=
  end_session_empty_sentinel mEmptySession "A" 1 (freshSession 0) rfl (Or.inl rfl)

/-- Claim C9: `end_session` for a device with no active session returns the
"nothing to save" sentinel without failing and leaves the registry
unchanged. -/
theorem end_session_unknown_device (m : SessionMap) (d : String) (now : ℕ)
    (h : m d = none) : end_session m d now = (m, none) := by
  unfold end_session
  rw [h]

/-- Witness for `end_session_unknown_device` on the empty registry. -/
theorem end_session_unknown_device_witness :
    end_session emptyMap "Z" 0 = (emptyMap, none) :=
  end_session_unknown_device emptyMap "Z" 0 rfl

/-- Claim C4: immediately after `end_session` for a device the device is
absent from the registry, whatever `end_session` returned; and the device
stays absent under `start_session`/`add_beat` for other devices and under
any further `end_session`, so only the next `start_session` or `add_beat`
for the device itself can re-introduce it. -/
theorem end_session_removes_device (m : SessionMap) (d : String) (now : ℕ) :
    (end_session m d now).1 d = none ∧
    (∀ (m2 : SessionMap) (d2 : String) (t : ℕ), m2 d = none → d2 ≠ d →
      start_session m2 d2 t d = none) ∧
    (∀ (m2 : SessionMap) (d2 : String) (bpm : ℚ) (ir ac : ℤ) (t : ℕ),
      m2 d = none → d2 ≠ d → add_beat m2 d2 bpm ir ac t d = none) ∧
    (∀ (m2 : SessionMap) (d2 : String) (t : ℕ), m2 d = none →
      (end_session m2 d2 t).1 d = none) := by
  refine ⟨?_, ?_, ?_, ?_⟩
  · unfold end_session
    cases hm : m d with
    | none => exact hm
    | some s =>
      by_cases h : s.bpm_values = [] ∨ s.beat_count = 0 <;>
        simp [h, mapDel_same]
  · intro m2 d2 t h hd
    unfold start_session
    rw [mapSet_other _ _ _ _ (Ne.symm hd)]
    exact h
  · intro m2 d2 bpm ir ac t h hd
    unfold add_beat
    cases hm2 : m2 d2 with
    | none =>
      simp only [hm2, Option.isSome_none, Bool.false_eq_true, if_false]
      unfold start_session
      rw [mapSet_same]
      simp only
      rw [mapSet_other _ _ _ _ (Ne.symm hd), mapSet_other _ _ _ _ (Ne.symm hd)]
      exact h
    | some s =>
      simp only [hm2, Option.isSome_some, if_true, hm2]
      rw [mapSet_other _ _ _ _ (Ne.symm hd)]
      exact h
  · intro m2 d2 t h
    unfold end_session
    cases hm2 : m2 d2 with
    | none => exact h
    | some s =>
      by_cases h2 : s.bpm_values = [] ∨ s.beat_count = 0 <;>
        simp only [h2, if_true, if_false] <;>
        · unfold mapDel
          by_cases hdd : d = d2 <;> simp [hdd, h]

/-- Witness for `end_session_removes_device` at concrete devices. -/
theorem end_session_removes_device_witness :
    (end_session mEmptySession "A" 3).1 "A" = none ∧
    start_session emptyMap "B" 0 "A" = none ∧
    add_beat emptyMap "B" 70 1 2 5 "A" = none ∧
    (end_session emptyMap "B" 9).1 "A" = none := by
  have h := end_session_removes_device mEmptySession "A" 3
  exact ⟨h.1, h.2.1 emptyMap "B" 0 rfl (by decide),
    h.2.2.1 emptyMap "B" 70 1 2 5 rfl (by decide),
    h.2.2.2 emptyMap "B" 9 rfl⟩

/-- Claim C6: a beat with a non-positive rate is never admitted to the rate
buffer, while the beat count is still incremented and the amplitude is
admitted unconditionally. -/
theorem nonpositive_rate_excluded (m : SessionMap) (d : String) (s : SessionData)
    (bpm : ℚ) (ir ac : ℤ) (now : ℕ) (hm : m d = some s) (hb : bpm ≤ 0) :
    ∃ s2, add_beat m d bpm ir ac now d = some s2 ∧
      s2.bpm_values = s.bpm_values ∧
      s2.beat_count = s.beat_count + 1 ∧
      s2.ir_values = dequeAppend 1000 s.ir_values ir := by
  refine ⟨beatUpdate s bpm ir ac now, ?_, ?_, ?_, ?_⟩
  · unfold add_beat
    simp only [hm, Option.isSome_some, if_true, hm]
    exact mapSet_same _ _ _
  · simp [beatUpdate, not_lt.mpr hb]
  · simp [beatUpdate]
  · simp [beatUpdate]

/-- Witness for `nonpositive_rate_excluded`: a zero-rate beat on a live
session. -/
theorem nonpositive_rate_excluded_witness :
    ∃ s2, add_beat mC10 "A" 0 7 8 40 "A" = some s2 ∧
      s2.bpm_values = sC10.bpm_values ∧
      s2.beat_count = sC10.beat_count + 1 ∧
      s2.ir_values = dequeAppend 1000 sC10.ir_values 7 :=
  nonpositive_rate_excluded mC10 "A" sC10 0 7 8 40 rfl (le_refl 0)

/-- Counterexample to claim C3 as stated: registering an observer that is
already registered does not leave the membership unchanged — the list gains
a duplicate entry. -/
theorem register_not_idempotent_cex :
    connect [7] 7 = [7, 7] ∧ connect [7] 7 ≠ [7] := by decide

/-- Claim C3 (amended): `unregister` of an absent observer leaves the
membership unchanged, but `register` is an unconditional list append, so
registering an already-registered observer adds a duplicate entry instead
of leaving the membership unchanged. -/
theorem register_appends_unregister_absent_noop (conns : List ℕ) (w : ℕ) :
    connect conns w = conns ++ [w] ∧ (w ∉ conns → disconnect conns w = conns) := by
  refine ⟨rfl, fun h => ?_⟩
  simp [disconnect, h]

/-- Witness for `register_appends_unregister_absent_noop`. -/
theorem register_appends_unregister_absent_noop_witness :
    connect [7] 3 = [7, 3] ∧ disconnect [7] 3 = [7] :=
  ⟨(register_appends_unregister_absent_noop [7] 3).1,
    (register_appends_unregister_absent_noop [7] 3).2 (by decide)⟩

theorem length_takeLast_le (n : ℕ) (l : List α) : (takeLast n l).length ≤ n := by
  simp only [takeLast, List.length_drop]
  omega

theorem takeLast_nil (n : ℕ) : takeLast n ([] : List α) = [] := by
  simp [takeLast]

theorem takeLast_of_length_le {n : ℕ} {l : List α} (h : l.length ≤ n) :
    takeLast n l = l := by
  simp [takeLast, Nat.sub_eq_zero_of_le h]

theorem drop_append_singleton {k : ℕ} {l : List α} (x : α) (h : k ≤ l.length) :
    (l ++ [x]).drop k = l.drop k ++ [x] := by
  rw [List.drop_append_eq_append_drop, Nat.sub_eq_zero_of_le h]
  rfl

theorem takeLast_snoc (n : ℕ) (hn : 1 ≤ n) (l : List α) (x : α) :
    takeLast n (takeLast n l ++ [x]) = takeLast n (l ++ [x]) := by
  by_cases h : l.length ≤ n
  · rw [takeLast_of_length_le h]
  · have hL : n < l.length := Nat.lt_of_not_le h
    have hlen : (takeLast n l).length = n := by
      simp only [takeLast, List.length_drop]
      omega
    calc takeLast n (takeLast n l ++ [x])
        = (takeLast n l ++ [x]).drop ((takeLast n l ++ [x]).length - n) := rfl
      _ = (takeLast n l ++ [x]).drop 1 := by
          congr 1
          rw [List.length_append, hlen]
          simp
      _ = (takeLast n l).drop 1 ++ [x] := drop_append_singleton x (by omega)
      _ = (l.drop (l.length - n)).drop 1 ++ [x] := rfl
      _ = l.drop ((l.length - n) + 1) ++ [x] := by rw [List.drop_drop]
      _ = l.drop (l.length + 1 - n) ++ [x] := by
          rw [show (l.length - n) + 1 = l.length + 1 - n from by omega]
      _ = (l ++ [x]).drop (l.length + 1 - n) :=
          (drop_append_singleton x (by omega)).symm
      _ = (l ++ [x]).drop ((l ++ [x]).length - n) := by
          congr 1
          rw [List.length_append]
          simp
      _ = takeLast n (l ++ [x]) := rfl

theorem dequeAppend_takeLast (cap : ℕ) (hcap : 1 ≤ cap) (l : List α) (x : α) :
    dequeAppend cap (takeLast cap l) x = takeLast cap (l ++ [x]) := by
  unfold dequeAppend
  exact takeLast_snoc cap hcap l x

theorem snoc_pop_eq_takeLast (cap : ℕ) (l : List α)
    (hl : l.length ≤ cap) (x : α) :
    (if cap < (l ++ [x]).length then (l ++ [x]).drop 1 else l ++ [x]) =
      takeLast cap (l ++ [x]) := by
  rw [List.length_append]
  by_cases h : cap < l.length + [x].length
  · have hlc : l.length = cap := by simp at h; omega
    rw [if_pos h]
    unfold takeLast
    rw [List.length_append]
    congr 1
    simp [hlc]
  · rw [if_neg h]
    have : (l ++ [x]).length ≤ cap := by rw [List.length_append]; simpa using h
    rw [takeLast_of_length_le this]

theorem disconnect_eq_erase (conns : List ℕ) (w : ℕ) :
    disconnect conns w = conns.erase w := by
  by_cases h : w ∈ conns
  · simp [disconnect, h]
  · simp [disconnect, h, List.erase_of_not_mem h]

theorem foldl_disconnect_eq_foldl_erase (vs : List ℕ) :
    ∀ l : List ℕ, vs.foldl disconnect l = vs.foldl List.erase l := by
  induction vs with
  | nil => intro l; rfl
  | cons v vs ih =>
    intro l
    simp only [List.foldl_cons, disconnect_eq_erase]
    exact ih _

theorem broadcast_fold (sendOk : ℕ → Bool) (cs : List ℕ) :
    ∀ a b : List ℕ,
      cs.foldl (broadcastStep sendOk) (a, b) =
        (a ++ cs.filter (fun c => sendOk c), b ++ cs.filter (fun c => ! sendOk c)) := by
  induction cs with
  | nil => intro a b; simp
  | cons c cs ih =>
    intro a b
    by_cases h : sendOk c <;>
      simp only [List.foldl_cons, broadcastStep, h, if_true, if_false,
        Bool.not_true, Bool.not_false, List.filter_cons] <;>
      simp [ih, h]

theorem foldl_erase_cons_of_ne (x : ℕ) (vs : List ℕ) :
    ∀ xs : List ℕ, (∀ v ∈ vs, v ≠ x) →
      vs.foldl List.erase (x :: xs) = x :: vs.foldl List.erase xs := by
  induction vs with
  | nil => intro xs _; rfl
  | cons v vs ih =>
    intro xs h
    have hvx : v ≠ x := h v (List.mem_cons_self v vs)
    simp only [List.foldl_cons]
    rw [List.erase_cons_tail (by simpa using Ne.symm hvx)]
    exact ih _ (fun u hu => h u (List.mem_cons_of_mem v hu))

theorem foldl_erase_filter (p : ℕ → Bool) :
    ∀ l : List ℕ, (l.filter (fun c => ! p c)).foldl List.erase l = l.filter p := by
  intro l
  induction l with
  | nil => rfl
  | cons x xs ih =>
    by_cases h : p x
    · rw [List.filter_cons_of_neg (by simp [h]), List.filter_cons_of_pos (by simp [h])]
      rw [foldl_erase_cons_of_ne x _ xs ?_, ih]
      intro v hv
      have : ¬ p v := by
        have := List.of_mem_filter hv
        simpa using this
      intro hvx
      exact this (hvx ▸ h)
    · rw [List.filter_cons_of_pos (by simp [h]), List.filter_cons_of_neg (by simp [h])]
      simp only [List.foldl_cons, List.erase_cons_head]
      exact ih

/-- Claim C8: `broadcast` attempts delivery to every registered observer:
every observer whose send succeeds receives the event (failure of one
observer never blocks the others), and afterwards the membership consists of
exactly the observers whose delivery succeeded — exactly the failed ones
are removed. -/
theorem broadcast_failure_isolation (conns : List ℕ) (sendOk : ℕ → Bool) :
    (broadcast conns sendOk).1 = conns.filter (fun c => sendOk c) ∧
    (broadcast conns sendOk).2 = conns.filter (fun c => sendOk c) := by
  unfold broadcast
  rw [broadcast_fold sendOk conns [] []]
  constructor
  · simp
  · simp only [List.nil_append]
    rw [foldl_disconnect_eq_foldl_erase, foldl_erase_filter]

theorem posRates_cons (b : Beat) (bs : List Beat) :
    posRates (b :: bs) = (if 0 < b.bpm then [b.bpm] else []) ++ posRates bs := by
  by_cases hb : 0 < b.bpm <;> simp [posRates, List.filter_cons, hb]

theorem expectedWaveformFrom_cons (k : ℕ) (b : Beat) (bs : List Beat) :
    expectedWaveformFrom k (b :: bs) =
      (if (k + 1) % 10 = 0 then
        [{ beat_number := k + 1
           bpm := pyRound 2 b.bpm
           ir := b.ir
           ac := b.ac
           timestamp := b.time }]
       else []) ++ expectedWaveformFrom (k + 1) bs := rfl

theorem beatUpdate_canon (t0 k : ℕ) (B : List ℚ) (I : List ℤ)
    (W : List WaveformSample) (b : Beat) :
    beatUpdate (canonState t0 k B I W) b.bpm b.ir b.ac b.time =
      canonState t0 (k + 1) (B ++ (if 0 < b.bpm then [b.bpm] else []))
        (I ++ [b.ir])
        (W ++ (if (k + 1) % 10 = 0 then
          [{ beat_number := k + 1
             bpm := pyRound 2 b.bpm
             ir := b.ir
             ac := b.ac
             timestamp := b.time }]
         else [])) := by
  unfold beatUpdate canonState
  dsimp only
  rw [SessionData.mk.injEq]
  refine ⟨rfl, ?_, dequeAppend_takeLast 1000 (by omega) I b.ir, rfl, ?_⟩
  · by_cases hb : 0 < b.bpm
    · rw [if_pos hb, if_pos hb, dequeAppend_takeLast 1000 (by omega) B b.bpm]
    · rw [if_neg hb, if_neg hb, List.append_nil]
  · by_cases hk : (k + 1) % 10 = 0
    · rw [if_pos hk, if_pos hk,
        snoc_pop_eq_takeLast 500 (takeLast 500 W) (length_takeLast_le 500 W)]
      exact takeLast_snoc 500 (by omega) W _
    · rw [if_neg hk, if_neg hk, List.append_nil]

theorem foldBeats_cons (s : SessionData) (b : Beat) (bs : List Beat) :
    foldBeats s (b :: bs) = foldBeats (beatUpdate s b.bpm b.ir b.ac b.time) bs := by
  unfold foldBeats
  rw [List.foldl_cons]

theorem foldBeats_canon (t0 : ℕ) (bs : List Beat) :
    ∀ (k : ℕ) (B : List ℚ) (I : List ℤ) (W : List WaveformSample),
      foldBeats (canonState t0 k B I W) bs =
        canonState t0 (k + bs.length) (B ++ posRates bs) (I ++ bs.map Beat.ir)
          (W ++ expectedWaveformFrom k bs) := by
  induction bs with
  | nil =>
    intro k B I W
    rw [show foldBeats (canonState t0 k B I W) [] = canonState t0 k B I W from rfl,
      show posRates [] = ([] : List ℚ) from rfl,
      show expectedWaveformFrom k [] = [] from rfl, List.map_nil,
      List.append_nil, List.append_nil, List.append_nil, List.length_nil,
      Nat.add_zero]
  | cons b bs ih =>
    intro k B I W
    rw [foldBeats_cons, beatUpdate_canon, ih, posRates_cons, expectedWaveformFrom_cons,
      List.map_cons,
      show k + 1 + bs.length = k + (b :: bs).length from by simp; omega]
    rw [List.append_assoc, List.append_assoc, List.append_assoc,
      List.singleton_append]

theorem runBeats_eq_foldBeats (d : String) (bs : List Beat) :
    ∀ (m : SessionMap) (s : SessionData), m d = some s →
      runBeats m d bs d = some (foldBeats s bs) := by
  induction bs with
  | nil =>
    intro m s hm
    simpa [runBeats, foldBeats] using hm
  | cons b bs ih =>
    intro m s hm
    have hstep : add_beat m d b.bpm b.ir b.ac b.time d =
        some (beatUpdate s b.bpm b.ir b.ac b.time) := by
      unfold add_beat
      simp only [hm, Option.isSome_some, if_true, hm]
      exact mapSet_same _ _ _
    have h1 : runBeats m d (b :: bs) =
        runBeats (add_beat m d b.bpm b.ir b.ac b.time) d bs := rfl
    rw [h1, foldBeats_cons, ih _ _ hstep]

/-- The session state reached from a freshly started session after an
arbitrary beat sequence: each buffer holds the capacity-bounded tail of the
corresponding full history. -/
theorem runBeats_start_spec (d : String) (t0 : ℕ) (bs : List Beat) :
    runBeats (start_session emptyMap d t0) d bs d =
      some (canonState t0 bs.length (posRates bs) (bs.map Beat.ir)
        (expectedWaveformFrom 0 bs)) := by
  have h0 : start_session emptyMap d t0 d = some (canonState t0 0 [] [] []) := by
    unfold start_session
    rw [mapSet_same]
    unfold freshSession canonState
    rw [takeLast_nil, takeLast_nil, takeLast_nil]
  rw [runBeats_eq_foldBeats d bs _ _ h0, foldBeats_canon]
  simp

/-- Claim C7: starting from a fresh session, a waveform sample is captured
exactly at the beats whose post-increment beat number is divisible by 10
(`expectedWaveformFrom 0`), the retained sequence is the most recent
captures in order (`takeLast 500`), and it never exceeds 500 entries. -/
theorem waveform_decimation_bounded (d : String) (t0 : ℕ) (bs : List Beat) :
    ∃ s, runBeats (start_session emptyMap d t0) d bs d = some s ∧
      s.waveform_samples = takeLast 500 (expectedWaveformFrom 0 bs) ∧
      s.waveform_samples.length ≤ 500 := by
  have hproj : (canonState t0 bs.length (posRates bs) (bs.map Beat.ir)
      (expectedWaveformFrom 0 bs)).waveform_samples =
      takeLast 500 (expectedWaveformFrom 0 bs) := by simp only [canonState]
  refine ⟨_, runBeats_start_spec d t0 bs, hproj, ?_⟩
  rw [hproj]
  exact length_takeLast_le 500 _

theorem get_session_info_some (m : SessionMap) (d : String) (now : ℕ)
    (s : SessionData) (hm : m d = some s) (hne : s.bpm_values ≠ []) :
    get_session_info m d now =
      some { active := true
             duration := timedeltaSeconds s.start_time now
             beats := s.beat_count
             avg_bpm := pyRound 1 (listMean s.bpm_values)
             min_bpm := some (pyRound 1 (listMin s.bpm_values))
             max_bpm := some (pyRound 1 (listMax s.bpm_values)) } := by
  unfold get_session_info
  simp only [hm]
  rw [if_neg hne]

theorem end_session_some (m : SessionMap) (d : String) (now : ℕ)
    (s : SessionData) (hm : m d = some s) (hne : s.bpm_values ≠ [])
    (hc : s.beat_count ≠ 0) :
    (end_session m d now).2 =
      some { device_id := d
             session_start := s.start_time
             session_end := now
             duration_seconds := timedeltaSeconds s.start_time now
             total_beats := s.beat_count
             avg_bpm := pyRound 2 (listMean s.bpm_values)
             min_bpm := pyRound 2 (listMin s.bpm_values)
             max_bpm := pyRound 2 (listMax s.bpm_values)
             avg_ir_value :=
               if s.ir_values ≠ [] then
                 pyRound 2 (listMean (s.ir_values.map (fun i => (i : ℚ))))
               else 0
             signal_quality := pyRound 2 (signalQuality s.ir_values)
             waveform_sample := s.waveform_samples } := by
  unfold end_session
  simp only [hm]
  rw [if_neg (fun h => h.elim hne hc)]

/-- Claim C5: after any beat sequence from a fresh session, the rate buffer
is exactly the last at-most-1000 admitted positive rates in admission
order, and both the live info and the final summary compute their
avg/min/max BPM statistics over exactly that sliding window. -/
theorem rate_stats_sliding_window (d : String) (t0 : ℕ) (bs : List Beat)
    (now : ℕ) :
    (∃ s, runBeats (start_session emptyMap d t0) d bs d = some s ∧
        s.bpm_values = takeLast 1000 (posRates bs)) ∧
    (takeLast 1000 (posRates bs) ≠ [] →
      get_session_info (runBeats (start_session emptyMap d t0) d bs) d now =
        some { active := true
               duration := timedeltaSeconds t0 now
               beats := bs.length
               avg_bpm := pyRound 1 (listMean (takeLast 1000 (posRates bs)))
               min_bpm := some (pyRound 1 (listMin (takeLast 1000 (posRates bs))))
               max_bpm :=
                 some (pyRound 1 (listMax (takeLast 1000 (posRates bs)))) }) ∧
    (takeLast 1000 (posRates bs) ≠ [] →
      ∃ sum,
        (end_session (runBeats (start_session emptyMap d t0) d bs) d now).2 =
          some sum ∧
        sum.total_beats = bs.length ∧
        sum.avg_bpm = pyRound 2 (listMean (takeLast 1000 (posRates bs))) ∧
        sum.min_bpm = pyRound 2 (listMin (takeLast 1000 (posRates bs))) ∧
        sum.max_bpm = pyRound 2 (listMax (takeLast 1000 (posRates bs)))) := by
  have hs := runBeats_start_spec d t0 bs
  have hproj : (canonState t0 bs.length (posRates bs) (bs.map Beat.ir)
      (expectedWaveformFrom 0 bs)).bpm_values =
      takeLast 1000 (posRates bs) := by simp only [canonState]
  refine ⟨⟨_, hs, hproj⟩, ?_, ?_⟩
  · intro hne
    rw [get_session_info_some _ _ _ _ hs (by rw [hproj]; exact hne)]
    simp only [canonState]
  · intro hne
    have hbs : bs ≠ [] := by
      intro h0
      apply hne
      rw [h0, show posRates [] = ([] : List ℚ) from rfl, takeLast_nil]
    have hc : bs.length ≠ 0 := fun h => hbs (List.length_eq_zero.mp h)
    refine ⟨_, end_session_some _ _ _ _ hs (by rw [hproj]; exact hne)
      (by simp only [canonState]; exact hc), ?_, ?_, ?_, ?_⟩ <;>
      simp only [canonState]

/-- Witness for `rate_stats_sliding_window` at a concrete one-beat run. -/
theorem rate_stats_sliding_window_witness :
    (get_session_info (runBeats (start_session emptyMap "A" 0) "A" bs0) "A" 9 =
      some { active := true
             duration := timedeltaSeconds 0 9
             beats := bs0.length
             avg_bpm := pyRound 1 (listMean (takeLast 1000 (posRates bs0)))
             min_bpm := some (pyRound 1 (listMin (takeLast 1000 (posRates bs0))))
             max_bpm :=
               some (pyRound 1 (listMax (takeLast 1000 (posRates bs0)))) }) ∧
    (∃ sum,
      (end_session (runBeats (start_session emptyMap "A" 0) "A" bs0) "A" 9).2 =
        some sum ∧
      sum.total_beats = bs0.length ∧
      sum.avg_bpm = pyRound 2 (listMean (takeLast 1000 (posRates bs0))) ∧
      sum.min_bpm = pyRound 2 (listMin (takeLast 1000 (posRates bs0))) ∧
      sum.max_bpm = pyRound 2 (listMax (takeLast 1000 (posRates bs0)))) := by
  have h := rate_stats_sliding_window "A" 0 bs0 9
  exact ⟨h.2.1 (by decide), h.2.2 (by decide)⟩

theorem rhe_bounds (q : ℚ) : ⌊q⌋ ≤ rhe q ∧ rhe q ≤ ⌊q⌋ + 1 := by
  unfold rhe
  split_ifs <;> omega

theorem rhe_intCast (z : ℤ) : rhe (z : ℚ) = z := by
  unfold rhe
  rw [Int.floor_intCast, sub_self, if_pos (by norm_num)]

theorem rhe_mono {x y : ℚ} (h : x ≤ y) : rhe x ≤ rhe y := by
  rcases lt_or_eq_of_le (Int.floor_mono h) with hf | hf
  · have h1 := (rhe_bounds x).2
    have h2 := (rhe_bounds y).1
    omega
  · unfold rhe
    rw [← hf]
    have hd : x - ⌊x⌋ ≤ y - ⌊x⌋ := by linarith
    split_ifs <;> first | omega | linarith

theorem pyRound_mono (n : ℕ) {x y : ℚ} (h : x ≤ y) : pyRound n x ≤ pyRound n y := by
  unfold pyRound
  have hp : (0 : ℚ) < 10 ^ n := by positivity
  have hr : rhe (x * 10 ^ n) ≤ rhe (y * 10 ^ n) :=
    rhe_mono (mul_le_mul_of_nonneg_right h (le_of_lt hp))
  exact (div_le_div_right hp).mpr (by exact_mod_cast hr)

theorem pyRound_nonneg (n : ℕ) {q : ℚ} (h : 0 ≤ q) : 0 ≤ pyRound n q := by
  have h0 : pyRound n 0 = 0 := by
    unfold pyRound
    rw [zero_mul, show ((0 : ℚ)) = (((0 : ℤ) : ℚ)) from by norm_num, rhe_intCast]
    norm_num
  calc (0 : ℚ) = pyRound n 0 := h0.symm
    _ ≤ pyRound n q := pyRound_mono n h

theorem pyRound_le_hundred (n : ℕ) {q : ℚ} (h : q ≤ 100) : pyRound n q ≤ 100 := by
  have hp : (0 : ℚ) < 10 ^ n := by positivity
  have h100 : pyRound n 100 = 100 := by
    unfold pyRound
    rw [show (100 : ℚ) * 10 ^ n = (((100 * 10 ^ n : ℤ)) : ℚ) from by push_cast; ring,
      rhe_intCast]
    push_cast
    rw [mul_div_assoc, div_self (ne_of_gt hp), mul_one]
  calc pyRound n q ≤ pyRound n 100 := pyRound_mono n h
    _ = 100 := h100

theorem foldl_min_le_init (l : List ℚ) : ∀ a : ℚ, l.foldl min a ≤ a := by
  induction l with
  | nil => intro a; simp
  | cons x xs ih =>
    intro a
    calc (x :: xs).foldl min a = xs.foldl min (min a x) := by rw [List.foldl_cons]
      _ ≤ min a x := ih _
      _ ≤ a := min_le_left _ _

theorem foldl_min_le_mem (l : List ℚ) :
    ∀ (a x : ℚ), x ∈ l → l.foldl min a ≤ x := by
  induction l with
  | nil => intro a x hx; cases hx
  | cons y ys ih =>
    intro a x hx
    rcases List.mem_cons.mp hx with rfl | hx
    · calc (x :: ys).foldl min a = ys.foldl min (min a x) := by rw [List.foldl_cons]
        _ ≤ min a x := foldl_min_le_init ys _
        _ ≤ x := min_le_right _ _
    · rw [List.foldl_cons]
      exact ih _ x hx

theorem listMin_le_mem (l : List ℚ) (x : ℚ) (hx : x ∈ l) : listMin l ≤ x := by
  cases l with
  | nil => cases hx
  | cons y ys =>
    rcases List.mem_cons.mp hx with rfl | hx
    · exact foldl_min_le_init ys x
    · exact foldl_min_le_mem ys y x hx

theorem init_le_foldl_max (l : List ℚ) : ∀ a : ℚ, a ≤ l.foldl max a := by
  induction l with
  | nil => intro a; simp
  | cons x xs ih =>
    intro a
    calc a ≤ max a x := le_max_left _ _
      _ ≤ xs.foldl max (max a x) := ih _
      _ = (x :: xs).foldl max a := by rw [List.foldl_cons]

theorem mem_le_foldl_max (l : List ℚ) :
    ∀ (a x : ℚ), x ∈ l → x ≤ l.foldl max a := by
  induction l with
  | nil => intro a x hx; cases hx
  | cons y ys ih =>
    intro a x hx
    rcases List.mem_cons.mp hx with rfl | hx
    · calc x ≤ max a x := le_max_right _ _
        _ ≤ ys.foldl max (max a x) := init_le_foldl_max ys _
        _ = (x :: ys).foldl max a := by rw [List.foldl_cons]
    · rw [List.foldl_cons]
      exact ih _ x hx

theorem mem_le_listMax (l : List ℚ) (x : ℚ) (hx : x ∈ l) : x ≤ listMax l := by
  cases l with
  | nil => cases hx
  | cons y ys =>
    rcases List.mem_cons.mp hx with rfl | hx
    · exact init_le_foldl_max ys x
    · exact mem_le_foldl_max ys y x hx

theorem length_mul_le_sum (l : List ℚ) (a : ℚ) (h : ∀ x ∈ l, a ≤ x) :
    (l.length : ℚ) * a ≤ l.sum := by
  induction l with
  | nil => simp
  | cons x xs ih =>
    rw [List.sum_cons, List.length_cons]
    push_cast
    have hx : a ≤ x := h x (List.mem_cons_self x xs)
    have hxs := ih (fun y hy => h y (List.mem_cons_of_mem x hy))
    linarith

theorem sum_le_length_mul (l : List ℚ) (a : ℚ) (h : ∀ x ∈ l, x ≤ a) :
    l.sum ≤ (l.length : ℚ) * a := by
  induction l with
  | nil => simp
  | cons x xs ih =>
    rw [List.sum_cons, List.length_cons]
    push_cast
    have hx : x ≤ a := h x (List.mem_cons_self x xs)
    have hxs := ih (fun y hy => h y (List.mem_cons_of_mem x hy))
    linarith

theorem listMin_le_listMean (l : List ℚ) (h : l ≠ []) : listMin l ≤ listMean l := by
  have hlen : 0 < (l.length : ℚ) := by
    have := List.length_pos.mpr h
    exact_mod_cast this
  rw [listMean, le_div_iff hlen, mul_comm]
  exact length_mul_le_sum l (listMin l) (fun x hx => listMin_le_mem l x hx)

theorem listMean_le_listMax (l : List ℚ) (h : l ≠ []) : listMean l ≤ listMax l := by
  have hlen : 0 < (l.length : ℚ) := by
    have := List.length_pos.mpr h
    exact_mod_cast this
  rw [listMean, div_le_iff hlen, mul_comm]
  exact sum_le_length_mul l (listMax l) (fun x hx => mem_le_listMax l x hx)

theorem signalQuality_nonneg (irs : List ℤ) : 0 ≤ signalQuality irs := by
  unfold signalQuality
  split_ifs with h
  · positivity
  · exact le_refl 0

theorem signalQuality_le_hundred (irs : List ℤ) : signalQuality irs ≤ 100 := by
  unfold signalQuality
  split_ifs with h
  · have hlen : 0 < (irs.length : ℚ) := by
      have := List.length_pos.mpr h
      exact_mod_cast this
    have hcnt : ((irs.filter (fun ir => decide (50000 < ir))).length : ℚ) ≤
        (irs.length : ℚ) := by
      exact_mod_cast List.length_filter_le _ _
    have h1 : ((irs.filter (fun ir => decide (50000 < ir))).length : ℚ) /
        (irs.length : ℚ) ≤ 1 := (div_le_one hlen).mpr hcnt
    linarith
  · norm_num

/-- Claim C10 (implicit): every summary actually returned by `end_session`
is well-formed: at least one beat, `min_bpm ≤ avg_bpm ≤ max_bpm`, and a
signal quality within `[0, 100]`. -/
theorem summary_well_formed (m : SessionMap) (d : String) (now : ℕ)
    (sum : SessionSummary) (h : (end_session m d now).2 = some sum) :
    1 ≤ sum.total_beats ∧
    sum.min_bpm ≤ sum.avg_bpm ∧ sum.avg_bpm ≤ sum.max_bpm ∧
    0 ≤ sum.signal_quality ∧ sum.signal_quality ≤ 100 := by
  cases hm : m d with
  | none =>
    unfold end_session at h
    rw [hm] at h
    cases h
  | some s =>
    by_cases hcond : s.bpm_values = [] ∨ s.beat_count = 0
    · unfold end_session at h
      simp only [hm, if_pos hcond] at h
      exact Option.noConfusion h
    · push_neg at hcond
      obtain ⟨hne, hc⟩ := hcond
      rw [end_session_some m d now s hm hne hc] at h
      have h2 := Option.some.inj h
      subst h2
      refine ⟨Nat.one_le_iff_ne_zero.mpr hc,
        pyRound_mono 2 (listMin_le_listMean _ hne),
        pyRound_mono 2 (listMean_le_listMax _ hne),
        pyRound_nonneg 2 (signalQuality_nonneg _),
        pyRound_le_hundred 2 (signalQuality_le_hundred _)⟩

/-- Witness for `summary_well_formed` at a concrete live session. -/
theorem summary_well_formed_witness :
    1 ≤ sumC10.total_beats ∧
    sumC10.min_bpm ≤ sumC10.avg_bpm ∧ sumC10.avg_bpm ≤ sumC10.max_bpm ∧
    0 ≤ sumC10.signal_quality ∧ sumC10.signal_quality ≤ 100 :=
  summary_well_formed mC10 "A" 30 sumC10 rfl

/-- Claim C2 (code bug): `end_session` computes `duration_seconds` with
`timedelta.seconds`, which drops whole days.  For a session that has run
for one day and one second the summary reports `duration_seconds = 1`,
although the elapsed time `now - startedAt` is 86401 seconds. -/
theorem duration_seconds_wraps_after_one_day :
    ∃ sum, (end_session mLong "dev" 86401).2 = some sum ∧
      sum.duration_seconds = 1 ∧ 86401 - sLong.start_time = 86401 ∧
      sum.duration_seconds ≠ 86401 - sLong.start_time := by
  refine ⟨_, rfl, rfl, rfl, by decide⟩

end HeartbeatApi
